import Mathlib

/-!
Verification of `eqxvision/experimental.py`: the intermediate-layer-getter
utility.  The Python module wraps selected sub-components of an immutable
tree-structured model so that their outputs are captured into mutable
side-channel cells (`AuxData`) during a forward call, and returns the final
output together with the ordered list of captured values.

Shallow embedding choices:
* A model is a tree (`Model`): `layer` is a callable leaf (a function from an
  input and an optional randomness key to a result or an error), `seq` is the
  special-cased flat pipeline (`equinox.nn.Sequential`), `node` is any other
  composite module that applies its children in order, and `wrapped cell m` is
  the `IntermediateWrapper` produced by `_make_intermediate_layer_wrapper`,
  bound to the capture cell with index `cell`.
* The mutable `AuxData` cells are embedded by explicit state passing: a
  `Store` is the list of the cells' contents in creation order (cell `i` is
  `auxs[i]`), each initialized to `none` (Python `None`), and the forward call
  threads the store.  `AuxData.update` is the unconditional overwrite of one
  cell.
* Errors raised by layers are `Except.error`; all other code propagates them
  via `bind`/`map`, mirroring Python exception propagation.
* The external collaborators (`equinox.nn.Sequential` dispatch, `eqx.tree_at`)
  are embedded per the contract the spec states in its interface section:
  sub-components are called with `(input, optional key)`; `tree_at` is a batch
  copy-with-replacement at structural locations that preserves everything
  else and fails on invalid or overlapping locations.  Selector results are
  therefore either positional indices (flat case) or structural paths
  (general case).
-/

namespace EqxVision

/-- Randomness keys are abstract tokens; the wrapper only forwards them. -/
abbrev Key := Option Nat

/-- A tree-structured model.  `layer` is a callable leaf; `seq` is the
`equinox.nn.Sequential` pipeline (special-cased by `intermediate_layer_getter`);
`node` is a user-defined composite module applying its children in order (not
an instance of `Sequential`); `wrapped cell inner` is an
`IntermediateWrapper` whose closure holds the `AuxData` cell numbered
`cell`. -/
inductive Model (α : Type) where
  | layer (f : α → Key → Except String α)
  | seq (layers : List (Model α))
  | node (children : List (Model α))
  | wrapped (cell : Nat) (inner : Model α)

/-- The contents of the `AuxData` cells, in creation order.  `none` is the
Python `None` the constructor stores. -/
abbrev Store (α : Type) := List (Option α)

/-- The operation `AuxData.update`: unconditionally overwrite the stored value of cell `i`
with `v`. -/
def AuxData.update (σ : Store α) (i : Nat) (v : α) : Store α :=
  σ.set i (some v)

/-- The cells as freshly created by `_make_intermediate_layer_wrapper`:
`n` cells, each holding `None`. -/
def initStore (α : Type) (n : Nat) : Store α :=
  List.replicate n none

mutual

/-- Forward call of a model, threading the capture cells.
`wrapped` is `IntermediateWrapper.__call__`: run the wrapped layer on the
same input and the forwarded key, write the result to the bound cell, and
return that same result. -/
def Model.call : Model α → α → Key → Store α → Except String (α × Store α)
  | .layer f, x, k, σ => (f x k).map (fun y => (y, σ))
  | .seq ls, x, k, σ => Model.callList ls x k σ
  | .node ls, x, k, σ => Model.callList ls x k σ
  | .wrapped i m, x, k, σ =>
      (m.call x k σ).map (fun p => (p.1, AuxData.update p.2 i p.1))

/-- Apply a list of sub-modules in order, feeding each output to the next. -/
def Model.callList : List (Model α) → α → Key → Store α → Except String (α × Store α)
  | [], x, _, σ => .ok (x, σ)
  | m :: rest, x, k, σ =>
      (m.call x k σ).bind (fun p => Model.callList rest p.1 k p.2)

end

mutual

/-- The output of a model ignoring the capture cells: the semantics of the
original (un-instrumented) model.  A `wrapped` node is output-transparent. -/
def Model.callPure : Model α → α → Key → Except String α
  | .layer f, x, k => f x k
  | .seq ls, x, k => Model.callPureList ls x k
  | .node ls, x, k => Model.callPureList ls x k
  | .wrapped _ m, x, k => m.callPure x k

/-- Pipeline of pure calls. -/
def Model.callPureList : List (Model α) → α → Key → Except String α
  | [], x, _ => .ok x
  | m :: rest, x, k => (m.callPure x k).bind (fun y => Model.callPureList rest y k)

end

mutual

/-- Forward call instrumented with the sequence of cell writes it performs:
each completed invocation of a `wrapped` node appends `(cell, output)` to the
trace, in execution order. -/
def Model.callTrace : Model α → α → Key → Except String (α × List (Nat × α))
  | .layer f, x, k => (f x k).map (fun y => (y, []))
  | .seq ls, x, k => Model.callTraceList ls x k
  | .node ls, x, k => Model.callTraceList ls x k
  | .wrapped i m, x, k =>
      (m.callTrace x k).map (fun p => (p.1, p.2 ++ [(i, p.1)]))

/-- Trace of a pipeline: traces of the stages, concatenated in order. -/
def Model.callTraceList : List (Model α) → α → Key → Except String (α × List (Nat × α))
  | [], x, _ => .ok (x, [])
  | m :: rest, x, k =>
      (m.callTrace x k).bind (fun p =>
        (Model.callTraceList rest p.1 k).map (fun q => (q.1, p.2 ++ q.2)))

end

/-- Replay a trace of cell writes onto a store. -/
def applyWrites (σ : Store α) (tr : List (Nat × α)) : Store α :=
  tr.foldl (fun s w => AuxData.update s w.1 w.2) σ

/-- The value of the last write to cell `i` in a trace, if any. -/
def lastWrite : List (Nat × α) → Nat → Option α
  | [], _ => none
  | w :: tr, i =>
      match lastWrite tr i with
      | some v => some v
      | none => if w.1 = i then some w.2 else none

/-- All values written to cell `i`, in execution order. -/
def writesTo (tr : List (Nat × α)) (i : Nat) : List α :=
  (tr.filter (fun w => w.1 == i)).map Prod.snd

/-! ### Target selection and structural replacement -/

/-- A structural location inside a model: the list of child positions to
descend through (`seq`/`node` children by position). -/
abbrev Path := List Nat

/-- The sub-model at a structural location, if the location exists. -/
def Model.subtreeAt : Model α → Path → Option (Model α)
  | m, [] => some m
  | .seq ls, j :: p => (ls[j]?).bind (fun c => c.subtreeAt p)
  | .node ls, j :: p => (ls[j]?).bind (fun c => c.subtreeAt p)
  | _, _ :: _ => none

/-- Copy-with-replacement at one structural location (the external tree
library's single-location substitution): produce a new model with `r` at path
`p`, everything else unchanged; `none` if the location does not exist. -/
def Model.replaceAt : Model α → Path → Model α → Option (Model α)
  | _, [], r => some r
  | .seq ls, j :: p, r =>
      (ls[j]?).bind (fun c => (c.replaceAt p r).map (fun c' => .seq (ls.set j c')))
  | .node ls, j :: p, r =>
      (ls[j]?).bind (fun c => (c.replaceAt p r).map (fun c' => .node (ls.set j c')))
  | _, _ :: _, _ => none

/-- Batch replacement: substitute each listed location in turn. -/
def Model.replaceAll : Model α → List (Path × Model α) → Option (Model α)
  | m, [] => some m
  | m, (p, r) :: rest => (m.replaceAt p r).bind (fun m' => m'.replaceAll rest)

/-- The sub-models at a list of locations (the general-case
`target_layers = get_target_layers(model)`). -/
def Model.subtreesAt (m : Model α) : List Path → Option (List (Model α))
  | [] => some []
  | p :: ps => (m.subtreeAt p).bind (fun t => (m.subtreesAt ps).map (t :: ·))

/-- Two locations are independent: neither is a prefix of the other, so a
substitution at one leaves the sub-model at the other intact. -/
def pathFree (p q : Path) : Bool :=
  !(p.isPrefixOf q) && !(q.isPrefixOf p)

/-- All locations in the list are pairwise independent (the batch-replacement
primitive rejects overlapping target locations). -/
def pathsOk : List Path → Bool
  | [] => true
  | p :: rest => rest.all (pathFree p) && pathsOk rest

/-- Pair each target with its wrapper, the `i`-th enumerated target with the
`i`-th manufactured `(cell, wrapper)` pair:
`replace=[wrapper(t) for (wrapper, t) in zip(wrappers, target_layers)]`. -/
def mkReps : Nat → List (Path × Model α) → List (Path × Model α)
  | _, [] => []
  | i, (p, t) :: rest => (p, .wrapped i t) :: mkReps (i + 1) rest

/-- The flat-sequential branch of `intermediate_layer_getter`: scan the
pipeline positions in order (`pos` is the running `idx`, `cnt` the running
`updated_count`); a selected position is replaced by the next manufactured
wrapper around the existing sub-module. -/
def instrumentFlat (idxs : List Nat) : List (Model α) → Nat → Nat → List (Model α)
  | [], _, _ => []
  | l :: rest, pos, cnt =>
      if pos ∈ idxs then .wrapped cnt l :: instrumentFlat idxs rest (pos + 1) (cnt + 1)
      else l :: instrumentFlat idxs rest (pos + 1) cnt

/-- How many of the `n` positions `pos, pos+1, ..., pos+n-1` are selected:
the value of `updated_count` after scanning them. -/
def selCount (idxs : List Nat) (pos : Nat) : Nat → Nat
  | 0 => 0
  | n + 1 => (if pos ∈ idxs then 1 else 0) + selCount idxs (pos + 1) n

/-- What `get_target_layers(model)` returned: positional indices into a flat
pipeline, or structural locations for the general tree case. -/
inductive SelResult where
  | indices (idxs : List Nat)
  | paths (ps : List Path)

/-- The number of targets `N = len(target_layers)`. -/
def SelResult.length : SelResult → Nat
  | .indices l => l.length
  | .paths l => l.length

/-- The aggregating model: the instrumented inner model plus the number of
manufactured cells (the `auxs` tuple it closes over). -/
structure IntermediateLayerGetter (α : Type) where
  model : Model α
  ncells : Nat

/-- The forward call `IntermediateLayerGetter.__call__`: run the instrumented model forward,
then return its output together with `[aux.data for aux in auxs]` — the
store after the call, read in cell-creation order. -/
def IntermediateLayerGetter.call (g : IntermediateLayerGetter α) (x : α) (k : Key)
    (σ : Store α) : Except String (α × Store α) :=
  g.model.call x k σ

/-- The `eqx.tree_at` branch: read the targets at the selected locations,
then batch-replace each by its paired wrapper (`wrappers[i]` around
`target_layers[i]`). -/
def generalBranch (m : Model α) (ps : List Path) :
    Except String (IntermediateLayerGetter α) :=
  match m.subtreesAt ps with
  | none => .error "tree_at: selector does not locate a sub-module"
  | some targets =>
      if pathsOk ps then
        match m.replaceAll (mkReps 0 (ps.zip targets)) with
        | some m' => .ok ⟨m', ps.length⟩
        | none => .error "tree_at: replacement failed"
      else .error "tree_at: overlapping target locations"

/-- The constructor `intermediate_layer_getter(model, get_target_layers)` with the selector's
single application `get_target_layers(model)` passed as `sel`.
Mirrors the source line by line:
* `auxs, wrappers = zip(*[...])` raises `ValueError` when the selector
  produced zero targets (`zip(*[])` unpacks no values);
* a `Sequential` model takes the positional-index branch: positions whose
  index is a member of the selector result are wrapped, in scan order (an
  index-vs-module selector mismatch simply never matches, wrapping nothing);
* any other model goes through `eqx.tree_at`, which reads the targets at the
  selected locations and batch-replaces them with their wrappers; invalid or
  overlapping locations make the structural replacement fail. -/
def intermediate_layer_getter (model : Model α) (sel : SelResult) :
    Except String (IntermediateLayerGetter α) :=
  if sel.length = 0 then
    .error "not enough values to unpack (expected 2, got 0)"
  else
    match model, sel with
    | .seq ls, .indices idxs => .ok ⟨.seq (instrumentFlat idxs ls 0 0), idxs.length⟩
    | .seq ls, .paths ps => .ok ⟨.seq ls, ps.length⟩
    | m, .paths ps => generalBranch m ps
    | _, .indices _ =>
        .error "tree_at: selector does not locate a sub-module"

/-! ### Concrete example instances, used by the witnesses below -/

/-- Layer computing `x + 1`. -/
def incLayer : Model Nat := .layer (fun x _ => .ok (x + 1))

/-- Layer computing `2 * x`. -/
def dblLayer : Model Nat := .layer (fun x _ => .ok (x * 2))

/-- Layer that always raises. -/
def boomLayer : Model Nat := .layer (fun _ _ => .error "boom")

/-- Two-stage pipeline: `x + 1` then `2 * x`. -/
def exPipe : Model Nat := .seq [incLayer, dblLayer]

/-- The getter `intermediate_layer_getter` builds from `exPipe` for
selector result `[0]`. -/
def exGetter : IntermediateLayerGetter Nat :=
  ⟨.seq [.wrapped 0 incLayer, dblLayer], 1⟩

/-- A non-`Sequential` composite of the same two layers. -/
def exNode : Model Nat := .node [incLayer, dblLayer]

/-- The getter built from `exNode` with locations `[[0], [1]]`. -/
def exNodeGetter : IntermediateLayerGetter Nat :=
  ⟨.node [.wrapped 0 incLayer, .wrapped 1 dblLayer], 2⟩

/-- A model whose forward pass writes cell 0 twice (a weight-shared wrapper
invoked on two different intermediate values). -/
def exTwice : Model Nat := .seq [.wrapped 0 incLayer, .wrapped 0 dblLayer]

/-- The getter built from `exPipe` for selector result `[0, 1]`. -/
def exGetter2 : IntermediateLayerGetter Nat :=
  ⟨.seq [.wrapped 0 incLayer, .wrapped 1 dblLayer], 2⟩

/-- One-stage pipeline that raises. -/
def exBoomPipe : Model Nat := .seq [boomLayer]

/-- The getter built from `exBoomPipe` for selector result `[0]`. -/
def exBoomGetter : IntermediateLayerGetter Nat := ⟨.seq [.wrapped 0 boomLayer], 1⟩

/-! ### Store and trace lemmas -/

theorem AuxData.update_length (σ : Store α) (i : Nat) (v : α) :
    (AuxData.update σ i v).length = σ.length := by
  simp [AuxData.update]

theorem applyWrites_nil (σ : Store α) : applyWrites σ [] = σ := rfl

theorem applyWrites_cons (σ : Store α) (w : Nat × α) (tr : List (Nat × α)) :
    applyWrites σ (w :: tr) = applyWrites (AuxData.update σ w.1 w.2) tr := rfl

theorem applyWrites_append (σ : Store α) (t₁ t₂ : List (Nat × α)) :
    applyWrites σ (t₁ ++ t₂) = applyWrites (applyWrites σ t₁) t₂ := by
  simp [applyWrites, List.foldl_append]

theorem applyWrites_length (σ : Store α) (tr : List (Nat × α)) :
    (applyWrites σ tr).length = σ.length := by
  induction tr generalizing σ with
  | nil => rfl
  | cons w tr ih => rw [applyWrites_cons, ih, AuxData.update_length]

mutual

/-- The store-threading semantics is the trace semantics with the writes
replayed onto the incoming store. -/
theorem Model.call_eq_trace (m : Model α) (x : α) (k : Key) (σ : Store α) :
    m.call x k σ = (m.callTrace x k).map (fun p => (p.1, applyWrites σ p.2)) := by
  match m with
  | .layer f =>
      simp only [Model.call, Model.callTrace]
      cases f x k <;> rfl
  | .seq ls => exact Model.callList_eq_trace ls x k σ
  | .node ls => exact Model.callList_eq_trace ls x k σ
  | .wrapped i m =>
      simp only [Model.call, Model.callTrace, Model.call_eq_trace m x k σ]
      cases m.callTrace x k with
      | error e => rfl
      | ok p => simp [Except.map, applyWrites_append, applyWrites_cons, applyWrites_nil]

theorem Model.callList_eq_trace (ls : List (Model α)) (x : α) (k : Key) (σ : Store α) :
    Model.callList ls x k σ =
      (Model.callTraceList ls x k).map (fun p => (p.1, applyWrites σ p.2)) := by
  match ls with
  | [] => rfl
  | m :: rest =>
      simp only [Model.callList, Model.callTraceList, Model.call_eq_trace m x k σ]
      cases m.callTrace x k with
      | error e => rfl
      | ok p =>
          simp only [Except.map, Except.bind,
            Model.callList_eq_trace rest p.1 k (applyWrites σ p.2)]
          cases Model.callTraceList rest p.1 k with
          | error e => rfl
          | ok q => simp [applyWrites_append]

end

mutual

/-- The pure semantics is the first component of the trace semantics. -/
theorem Model.callPure_eq_trace (m : Model α) (x : α) (k : Key) :
    m.callPure x k = (m.callTrace x k).map Prod.fst := by
  match m with
  | .layer f =>
      simp only [Model.callPure, Model.callTrace]
      cases f x k <;> rfl
  | .seq ls => exact Model.callPureList_eq_trace ls x k
  | .node ls => exact Model.callPureList_eq_trace ls x k
  | .wrapped i m =>
      simp only [Model.callPure, Model.callTrace, Model.callPure_eq_trace m x k]
      cases m.callTrace x k <;> rfl

theorem Model.callPureList_eq_trace (ls : List (Model α)) (x : α) (k : Key) :
    Model.callPureList ls x k = (Model.callTraceList ls x k).map Prod.fst := by
  match ls with
  | [] => rfl
  | m :: rest =>
      simp only [Model.callPureList, Model.callTraceList, Model.callPure_eq_trace m x k]
      cases m.callTrace x k with
      | error e => rfl
      | ok p =>
          simp only [Except.map, Except.bind, Model.callPureList_eq_trace rest p.1 k]
          cases Model.callTraceList rest p.1 k <;> rfl

end

/-- The output component of a store-threading call is the pure output,
whatever the incoming store. -/
theorem Model.call_fst (m : Model α) (x : α) (k : Key) (σ : Store α) :
    (m.call x k σ).map Prod.fst = m.callPure x k := by
  rw [Model.call_eq_trace, Model.callPure_eq_trace]
  cases m.callTrace x k <;> rfl

theorem lastWrite_nil (i : Nat) : lastWrite ([] : List (Nat × α)) i = none := rfl

/-- Replaying a trace that never wrote cell `i` leaves entry `i` alone. -/
theorem applyWrites_getElem_of_no_write (tr : List (Nat × α)) (σ : Store α) (i : Nat)
    (h : lastWrite tr i = none) : (applyWrites σ tr)[i]? = σ[i]? := by
  induction tr generalizing σ with
  | nil => rfl
  | cons w tr ih =>
      simp only [lastWrite] at h
      rcases hw : lastWrite tr i with _ | v
      · rw [hw] at h
        have hne : w.1 ≠ i := by
          intro he
          rw [if_pos he] at h
          exact Option.noConfusion h
        rw [applyWrites_cons, ih _ hw, AuxData.update, List.getElem?_set_ne hne]
      · rw [hw] at h
        exact Option.noConfusion h

/-- Replaying a trace leaves cell `i` holding the last value written to it. -/
theorem applyWrites_getElem_of_last_write (tr : List (Nat × α)) (σ : Store α) (i : Nat)
    (v : α) (hlt : i < σ.length) (h : lastWrite tr i = some v) :
    (applyWrites σ tr)[i]? = some (some v) := by
  induction tr generalizing σ with
  | nil => exact Option.noConfusion h
  | cons w tr ih =>
      simp only [lastWrite] at h
      rcases hw : lastWrite tr i with _ | v'
      · rw [hw] at h
        have he : w.1 = i := by
          by_contra hne
          rw [if_neg hne] at h
          exact Option.noConfusion h
        have hv : w.2 = v := by
          rw [if_pos he] at h
          exact Option.some.inj h
        rw [applyWrites_cons, applyWrites_getElem_of_no_write tr _ i hw,
          AuxData.update, he, hv, List.getElem?_set_self' ]
        simp [hlt]
      · rw [hw] at h
        rw [applyWrites_cons, ih _ (by simpa [AuxData.update] using hlt) (h ▸ hw)]

theorem writesTo_cons (w : Nat × α) (tr : List (Nat × α)) (i : Nat) :
    writesTo (w :: tr) i =
      if w.1 = i then w.2 :: writesTo tr i else writesTo tr i := by
  by_cases he : w.1 = i <;> simp [writesTo, List.filter_cons, he]

/-- A cell never written to has no last write. -/
theorem lastWrite_of_writesTo_nil (tr : List (Nat × α)) (i : Nat)
    (h : writesTo tr i = []) : lastWrite tr i = none := by
  induction tr with
  | nil => rfl
  | cons w tr ih =>
      rw [writesTo_cons] at h
      by_cases he : w.1 = i
      · rw [if_pos he] at h
        exact List.noConfusion h
      · rw [if_neg he] at h
        simp [lastWrite, ih h, he]

/-- A cell written exactly once has that write as its last write. -/
theorem lastWrite_of_writesTo_singleton (tr : List (Nat × α)) (i : Nat) (v : α)
    (h : writesTo tr i = [v]) : lastWrite tr i = some v := by
  induction tr with
  | nil => exact List.noConfusion h
  | cons w tr ih =>
      rw [writesTo_cons] at h
      by_cases he : w.1 = i
      · rw [if_pos he] at h
        have hv : w.2 = v := (List.cons.inj h).1
        have htr : writesTo tr i = [] := (List.cons.inj h).2
        simp [lastWrite, lastWrite_of_writesTo_nil tr i htr, he, hv]
      · rw [if_neg he] at h
        simp [lastWrite, ih h]

theorem initStore_getElem (n i : Nat) (h : i < n) :
    (initStore α n)[i]? = some none := by
  simp [initStore, List.getElem?_replicate, h]

/-! ### Flat-sequential branch lemmas -/

theorem instrumentFlat_length (idxs : List Nat) (ls : List (Model α)) (pos cnt : Nat) :
    (instrumentFlat idxs ls pos cnt).length = ls.length := by
  induction ls generalizing pos cnt with
  | nil => rfl
  | cons l rest ih =>
      by_cases hm : pos ∈ idxs <;> simp [instrumentFlat, hm, ih]

/-- Scan characterization of the flat branch: position `pos + p` holds the
original module, wrapped with cell `cnt + selCount idxs pos p` exactly when
its index is selected. -/
theorem instrumentFlat_getElem (idxs : List Nat) (ls : List (Model α))
    (pos cnt p : Nat) :
    (instrumentFlat idxs ls pos cnt)[p]? =
      (ls[p]?).map (fun l =>
        if (pos + p) ∈ idxs then .wrapped (cnt + selCount idxs pos p) l else l) := by
  induction ls generalizing pos cnt p with
  | nil => simp [instrumentFlat]
  | cons l rest ih =>
      cases p with
      | zero =>
          by_cases hm : pos ∈ idxs <;> simp [instrumentFlat, hm, selCount]
      | succ p =>
          have harith : pos + (p + 1) = (pos + 1) + p := by omega
          by_cases hm : pos ∈ idxs
          · simp only [instrumentFlat, if_pos hm, List.getElem?_cons_succ, ih,
              List.getElem?_cons_succ, selCount, if_pos hm, harith]
            cases rest[p]? <;> simp [Nat.add_assoc]
          · simp only [instrumentFlat, if_neg hm, List.getElem?_cons_succ, ih,
              List.getElem?_cons_succ, selCount, if_neg hm, harith]
            cases rest[p]? <;> simp

/-- Wrapping positions of a pipeline does not change the pipeline's output. -/
theorem instrumentFlat_callPureList (idxs : List Nat) (ls : List (Model α))
    (pos cnt : Nat) (x : α) (k : Key) :
    Model.callPureList (instrumentFlat idxs ls pos cnt) x k =
      Model.callPureList ls x k := by
  induction ls generalizing pos cnt x with
  | nil => rfl
  | cons l rest ih =>
      by_cases hm : pos ∈ idxs
      · simp only [instrumentFlat, if_pos hm, Model.callPureList, Model.callPure]
        cases l.callPure x k with
        | error e => rfl
        | ok y => simp [Except.bind, ih]
      · simp only [instrumentFlat, if_neg hm, Model.callPureList]
        cases l.callPure x k with
        | error e => rfl
        | ok y => simp [Except.bind, ih]

/-! ### General-branch (structural replacement) lemmas -/

theorem pathFree_comm (p q : Path) : pathFree p q = pathFree q p := by
  simp [pathFree, Bool.and_comm]

theorem pathFree_nil_left (q : Path) : pathFree [] q = false := by
  simp [pathFree]

theorem pathFree_cons (j : Nat) (p q : Path) :
    pathFree (j :: p) (j :: q) = pathFree p q := by
  simp [pathFree, List.isPrefixOf_cons₂]

theorem Model.subtreeAt_nil (m : Model α) : m.subtreeAt [] = some m := by
  cases m <;> rfl

theorem Model.replaceAt_nil (m r : Model α) : m.replaceAt [] r = some r := by
  cases m <;> rfl

/-- Replacement succeeds at every location that exists. -/
theorem Model.replaceAt_isSome (m t r : Model α) (p : Path)
    (h : m.subtreeAt p = some t) : ∃ m', m.replaceAt p r = some m' := by
  induction p generalizing m with
  | nil => exact ⟨r, Model.replaceAt_nil m r⟩
  | cons j p' ih =>
      match m with
      | .layer f => exact Option.noConfusion h
      | .wrapped c mi => exact Option.noConfusion h
      | .seq ls =>
          simp only [Model.subtreeAt, Option.bind_eq_some] at h
          obtain ⟨c, hc, hsub⟩ := h
          obtain ⟨c', hc'⟩ := ih c hsub
          exact ⟨.seq (ls.set j c'), by simp [Model.replaceAt, hc, hc']⟩
      | .node ls =>
          simp only [Model.subtreeAt, Option.bind_eq_some] at h
          obtain ⟨c, hc, hsub⟩ := h
          obtain ⟨c', hc'⟩ := ih c hsub
          exact ⟨.node (ls.set j c'), by simp [Model.replaceAt, hc, hc']⟩

/-- After a replacement at `p`, the location `p` holds the replacement. -/
theorem Model.subtreeAt_replaceAt_self (m m' r : Model α) (p : Path)
    (h : m.replaceAt p r = some m') : m'.subtreeAt p = some r := by
  induction p generalizing m m' with
  | nil =>
      rw [Model.replaceAt_nil] at h
      rw [← Option.some.inj h]
      exact Model.subtreeAt_nil r
  | cons j p' ih =>
      match m with
      | .layer f => exact Option.noConfusion h
      | .wrapped c mi => exact Option.noConfusion h
      | .seq ls =>
          simp only [Model.replaceAt, Option.bind_eq_some, Option.map_eq_some'] at h
          obtain ⟨c, hc, c', hc', hm'⟩ := h
          have hlen : j < ls.length := (List.getElem?_eq_some_iff.mp hc).1
          rw [← hm']
          simp [Model.subtreeAt, List.getElem?_set_self (by simpa using hlen), ih c c' hc']
      | .node ls =>
          simp only [Model.replaceAt, Option.bind_eq_some, Option.map_eq_some'] at h
          obtain ⟨c, hc, c', hc', hm'⟩ := h
          have hlen : j < ls.length := (List.getElem?_eq_some_iff.mp hc).1
          rw [← hm']
          simp [Model.subtreeAt, List.getElem?_set_self (by simpa using hlen), ih c c' hc']

/-- A replacement at an independent location does not disturb the sub-model
at `p`. -/
theorem Model.subtreeAt_replaceAt_free (m m' r : Model α) (p q : Path)
    (hfree : pathFree p q = true) (h : m.replaceAt q r = some m') :
    m'.subtreeAt p = m.subtreeAt p := by
  induction q generalizing p m m' with
  | nil => rw [pathFree_comm, pathFree_nil_left] at hfree; exact Bool.noConfusion hfree
  | cons j q' ih =>
      match m with
      | .layer f => exact Option.noConfusion h
      | .wrapped c mi => exact Option.noConfusion h
      | .seq ls =>
          simp only [Model.replaceAt, Option.bind_eq_some, Option.map_eq_some'] at h
          obtain ⟨c, hc, c', hc', hm'⟩ := h
          match p with
          | [] => rw [pathFree_nil_left] at hfree; exact Bool.noConfusion hfree
          | j₂ :: p' =>
              rw [← hm']
              by_cases hj : j₂ = j
              · subst hj
                rw [pathFree_cons] at hfree
                have hlen : j₂ < ls.length := (List.getElem?_eq_some_iff.mp hc).1
                simp [Model.subtreeAt, List.getElem?_set_self (by simpa using hlen), hc,
                  ih _ _ _ hfree hc']
              · simp [Model.subtreeAt, List.getElem?_set_ne (fun he => hj he.symm)]
      | .node ls =>
          simp only [Model.replaceAt, Option.bind_eq_some, Option.map_eq_some'] at h
          obtain ⟨c, hc, c', hc', hm'⟩ := h
          match p with
          | [] => rw [pathFree_nil_left] at hfree; exact Bool.noConfusion hfree
          | j₂ :: p' =>
              rw [← hm']
              by_cases hj : j₂ = j
              · subst hj
                rw [pathFree_cons] at hfree
                have hlen : j₂ < ls.length := (List.getElem?_eq_some_iff.mp hc).1
                simp [Model.subtreeAt, List.getElem?_set_self (by simpa using hlen), hc,
                  ih _ _ _ hfree hc']
              · simp [Model.subtreeAt, List.getElem?_set_ne (fun he => hj he.symm)]

/-- A pipeline's output is unchanged when one stage is swapped for an
output-equivalent stage. -/
theorem Model.callPureList_set (ls : List (Model α)) (j : Nat) (c c' : Model α)
    (hc : ls[j]? = some c) (heq : ∀ x k, c'.callPure x k = c.callPure x k) :
    ∀ x k, Model.callPureList (ls.set j c') x k = Model.callPureList ls x k := by
  induction ls generalizing j with
  | nil => intro x k; simp at hc
  | cons l rest ih =>
      intro x k
      cases j with
      | zero =>
          have hl : l = c := by simpa using hc
          subst hl
          simp only [List.set_cons_zero, Model.callPureList, heq]
      | succ j =>
          simp only [List.set_cons_succ, Model.callPureList]
          cases l.callPure x k with
          | error e => rfl
          | ok y => simpa [Except.bind] using ih j (by simpa using hc) y k

/-- Replacing the sub-model at a location by an output-equivalent model keeps
the whole model's output. -/
theorem Model.replaceAt_callPure (m m' t r : Model α) (p : Path)
    (hsub : m.subtreeAt p = some t) (heq : ∀ x k, r.callPure x k = t.callPure x k)
    (h : m.replaceAt p r = some m') : ∀ x k, m'.callPure x k = m.callPure x k := by
  induction p generalizing m m' t with
  | nil =>
      rw [Model.subtreeAt_nil] at hsub
      rw [Model.replaceAt_nil] at h
      have ht : t = m := (Option.some.inj hsub).symm
      have hr : m' = r := (Option.some.inj h).symm
      intro x k
      rw [hr, heq, ht]
  | cons j p' ih =>
      match m with
      | .layer f => exact Option.noConfusion h
      | .wrapped c mi => exact Option.noConfusion h
      | .seq ls =>
          simp only [Model.subtreeAt, Option.bind_eq_some] at hsub
          obtain ⟨c, hc, hsubc⟩ := hsub
          simp only [Model.replaceAt, Option.bind_eq_some, Option.map_eq_some'] at h
          obtain ⟨c₂, hc₂, c', hc', hm'⟩ := h
          rw [hc] at hc₂
          have hcc : c₂ = c := (Option.some.inj hc₂).symm
          rw [hcc] at hc'
          intro x k
          rw [← hm']
          exact Model.callPureList_set ls j c c' hc (ih c c' t hsubc heq hc') x k
      | .node ls =>
          simp only [Model.subtreeAt, Option.bind_eq_some] at hsub
          obtain ⟨c, hc, hsubc⟩ := hsub
          simp only [Model.replaceAt, Option.bind_eq_some, Option.map_eq_some'] at h
          obtain ⟨c₂, hc₂, c', hc', hm'⟩ := h
          rw [hc] at hc₂
          have hcc : c₂ = c := (Option.some.inj hc₂).symm
          rw [hcc] at hc'
          intro x k
          rw [← hm']
          exact Model.callPureList_set ls j c c' hc (ih c c' t hsubc heq hc') x k

theorem pathsOk_cons (p : Path) (ps : List Path)
    (h : pathsOk (p :: ps) = true) :
    (∀ q ∈ ps, pathFree p q = true) ∧ pathsOk ps = true := by
  simp only [pathsOk, Bool.and_eq_true, List.all_eq_true] at h
  exact h

/-- Master lemma for the general branch: a batch replacement whose locations
exist, are pairwise independent, and whose replacements are
output-equivalent to what they replace (a) succeeds, (b) keeps the whole
model's output, (c) installs each replacement at its location, and
(d) leaves every independent location untouched. -/
theorem Model.replaceAll_spec (L : List (Path × Model α)) (m : Model α)
    (hsub : ∀ pr ∈ L, ∃ t, m.subtreeAt pr.1 = some t ∧
        ∀ x k, (pr.2).callPure x k = t.callPure x k)
    (hfree : pathsOk (L.map Prod.fst) = true) :
    ∃ m', m.replaceAll L = some m' ∧
      (∀ x k, m'.callPure x k = m.callPure x k) ∧
      (∀ pr ∈ L, m'.subtreeAt pr.1 = some pr.2) ∧
      (∀ q, (∀ pr ∈ L, pathFree pr.1 q = true) → m'.subtreeAt q = m.subtreeAt q) := by
  induction L generalizing m with
  | nil =>
      refine ⟨m, rfl, fun _ _ => rfl, fun pr hpr => absurd hpr (List.not_mem_nil pr), ?_⟩
      exact fun q _ => rfl
  | cons pr₀ L' ih =>
      obtain ⟨p, r⟩ := pr₀
      obtain ⟨t, ht, heq⟩ := hsub (p, r) (List.mem_cons_self _ _)
      obtain ⟨m₁, hm₁⟩ := Model.replaceAt_isSome m t r p ht
      rw [List.map_cons] at hfree
      obtain ⟨hall, hok⟩ := pathsOk_cons p (L'.map Prod.fst) hfree
      have hallfree : ∀ pr ∈ L', pathFree p pr.1 = true := fun pr hpr =>
        hall pr.1 (List.mem_map_of_mem Prod.fst hpr)
      have hsub' : ∀ pr ∈ L', ∃ t, m₁.subtreeAt pr.1 = some t ∧
          ∀ x k, (pr.2).callPure x k = t.callPure x k := by
        intro pr hpr
        obtain ⟨t', ht', heq'⟩ := hsub pr (List.mem_cons_of_mem _ hpr)
        refine ⟨t', ?_, heq'⟩
        rw [Model.subtreeAt_replaceAt_free m m₁ r pr.1 p
          (by rw [pathFree_comm]; exact hallfree pr hpr) hm₁]
        exact ht'
      obtain ⟨m', hrep, hpure, hins, hframe⟩ := ih m₁ hsub' hok
      refine ⟨m', ?_, ?_, ?_, ?_⟩
      · simp only [Model.replaceAll, hm₁, Option.bind_some]
        exact hrep
      · intro x k
        rw [hpure x k, Model.replaceAt_callPure m m₁ t r p ht heq hm₁ x k]
      · intro pr hpr
        rcases List.mem_cons.mp hpr with hh | hh
        · rw [hh]
          have : m'.subtreeAt p = m₁.subtreeAt p := by
            refine hframe p ?_
            intro pr' hpr'
            rw [pathFree_comm]
            exact hallfree pr' hpr'
          rw [this]
          exact Model.subtreeAt_replaceAt_self m m₁ r p hm₁
        · exact hins pr hh
      · intro q hq
        have h1 : m'.subtreeAt q = m₁.subtreeAt q := by
          refine hframe q ?_
          intro pr' hpr'
          exact hq pr' (List.mem_cons_of_mem _ hpr')
        rw [h1]
        exact Model.subtreeAt_replaceAt_free m m₁ r q p
          (by rw [pathFree_comm]; exact hq (p, r) (List.mem_cons_self _ _)) hm₁

/-! ### Construction lemmas -/

theorem Model.subtreesAt_length (m : Model α) (ps : List Path) (ts : List (Model α))
    (h : m.subtreesAt ps = some ts) : ts.length = ps.length := by
  induction ps generalizing ts with
  | nil =>
      have : ts = [] := (Option.some.inj h).symm
      simp [this]
  | cons p ps ih =>
      simp only [Model.subtreesAt, Option.bind_eq_some, Option.map_eq_some'] at h
      obtain ⟨t, _, ts', hts', hcons⟩ := h
      rw [← hcons, List.length_cons, ih ts' hts']
      rfl

theorem Model.subtreesAt_getElem (m : Model α) (ps : List Path) (ts : List (Model α))
    (h : m.subtreesAt ps = some ts) (i : Nat) (p : Path) (hp : ps[i]? = some p) :
    ∃ t, ts[i]? = some t ∧ m.subtreeAt p = some t := by
  induction ps generalizing ts i with
  | nil => simp at hp
  | cons p₀ ps ih =>
      simp only [Model.subtreesAt, Option.bind_eq_some, Option.map_eq_some'] at h
      obtain ⟨t₀, ht₀, ts', hts', hcons⟩ := h
      cases i with
      | zero =>
          have hpp : p₀ = p := by simpa using hp
          exact ⟨t₀, by simp [← hcons], hpp ▸ ht₀⟩
      | succ i =>
          obtain ⟨t, hts, hsub⟩ := ih ts' hts' i (by simpa using hp)
          exact ⟨t, by simp [← hcons, hts], hsub⟩

theorem Model.subtreesAt_zip_mem (m : Model α) (ps : List Path) (ts : List (Model α))
    (h : m.subtreesAt ps = some ts) :
    ∀ pt ∈ ps.zip ts, m.subtreeAt pt.1 = some pt.2 := by
  induction ps generalizing ts with
  | nil => intro pt hpt; simp at hpt
  | cons p₀ ps ih =>
      simp only [Model.subtreesAt, Option.bind_eq_some, Option.map_eq_some'] at h
      obtain ⟨t₀, ht₀, ts', hts', hcons⟩ := h
      intro pt hpt
      rw [← hcons, List.zip_cons_cons, List.mem_cons] at hpt
      rcases hpt with hh | hh
      · rw [hh]
        exact ht₀
      · exact ih ts' hts' pt hh

theorem mkReps_map_fst (i : Nat) (L : List (Path × Model α)) :
    (mkReps i L).map Prod.fst = L.map Prod.fst := by
  induction L generalizing i with
  | nil => rfl
  | cons pt L ih =>
      obtain ⟨p, t⟩ := pt
      simp [mkReps, ih]

theorem mkReps_getElem (i : Nat) (L : List (Path × Model α)) (j : Nat) :
    (mkReps i L)[j]? = (L[j]?).map (fun pt => (pt.1, Model.wrapped (i + j) pt.2)) := by
  induction L generalizing i j with
  | nil => simp [mkReps]
  | cons pt L ih =>
      obtain ⟨p, t⟩ := pt
      cases j with
      | zero => simp [mkReps]
      | succ j =>
          have : i + (j + 1) = (i + 1) + j := by omega
          simp [mkReps, ih (i + 1) j, this]

theorem mkReps_mem (i : Nat) (L : List (Path × Model α)) (pr : Path × Model α)
    (h : pr ∈ mkReps i L) :
    ∃ j pt, L[j]? = some pt ∧ pr = (pt.1, Model.wrapped (i + j) pt.2) := by
  obtain ⟨j, hj⟩ := List.mem_iff_getElem?.mp h
  rw [mkReps_getElem] at hj
  obtain ⟨pt, hpt, hpr⟩ := Option.map_eq_some'.mp hj
  exact ⟨j, pt, hpt, hpr.symm⟩

/-- Inversion of the general (tree-replacement) branch. -/
theorem generalBranch_ok (m : Model α) (ps : List Path)
    (g : IntermediateLayerGetter α) (hg : generalBranch m ps = .ok g) :
    ∃ ts, m.subtreesAt ps = some ts ∧ pathsOk ps = true ∧
      m.replaceAll (mkReps 0 (ps.zip ts)) = some g.model ∧ g.ncells = ps.length := by
  unfold generalBranch at hg
  split at hg
  · exact Except.noConfusion hg
  · rename_i ts hts
    split at hg
    · rename_i hok
      split at hg
      · rename_i m' hrep
        have hgg := Except.ok.inj hg
        refine ⟨ts, hts, hok, ?_, ?_⟩
        · rw [← hgg]
          exact hrep
        · rw [← hgg]
      · exact Except.noConfusion hg
    · exact Except.noConfusion hg

/-- The preconditions of the batch replacement hold for the wrapper
replacement list the constructor builds. -/
theorem mkReps_spec_hyps (m : Model α) (ps : List Path) (ts : List (Model α))
    (hts : m.subtreesAt ps = some ts) :
    ∀ pr ∈ mkReps 0 (ps.zip ts), ∃ t, m.subtreeAt pr.1 = some t ∧
      ∀ x k, (pr.2).callPure x k = t.callPure x k := by
  intro pr hpr
  obtain ⟨j, pt, hpt, hpr⟩ := mkReps_mem 0 (ps.zip ts) pr hpr
  have hmem : pt ∈ ps.zip ts := List.getElem?_mem hpt
  refine ⟨pt.2, by rw [hpr]; exact Model.subtreesAt_zip_mem m ps ts hts pt hmem, ?_⟩
  intro x k
  rw [hpr]
  rfl

theorem mkReps_pathsOk (ps : List Path) (ts : List (Model α))
    (hlen : ts.length = ps.length) (hok : pathsOk ps = true) :
    pathsOk ((mkReps 0 (ps.zip ts)).map Prod.fst) = true := by
  rw [mkReps_map_fst, List.map_fst_zip ps ts (by omega)]
  exact hok

/-- Central helper: a successfully constructed getter's inner model computes
the same output as the model handed to the constructor. -/
theorem getter_callPure (m : Model α) (sel : SelResult)
    (g : IntermediateLayerGetter α)
    (hg : intermediate_layer_getter m sel = .ok g) :
    ∀ x k, g.model.callPure x k = m.callPure x k := by
  unfold intermediate_layer_getter at hg
  by_cases hn : sel.length = 0
  · rw [if_pos hn] at hg
    exact Except.noConfusion hg
  · rw [if_neg hn] at hg
    have general : ∀ (m' : Model α) (ps : List Path), generalBranch m' ps = .ok g →
        ∀ x k, g.model.callPure x k = m'.callPure x k := by
      intro m' ps hgen x k
      obtain ⟨ts, hts, hok, hrep, _⟩ := generalBranch_ok m' ps g hgen
      obtain ⟨m'', hrep', hpure, _, _⟩ :=
        Model.replaceAll_spec (mkReps 0 (ps.zip ts)) m'
          (mkReps_spec_hyps m' ps ts hts)
          (mkReps_pathsOk ps ts (Model.subtreesAt_length m' ps ts hts) hok)
      rw [hrep] at hrep'
      rw [Option.some.inj hrep']
      exact hpure x k
    cases m with
    | seq ls =>
        cases sel with
        | indices idxs =>
            have hgg := Except.ok.inj hg
            rw [← hgg]
            intro x k
            exact instrumentFlat_callPureList idxs ls 0 0 x k
        | paths ps =>
            have hgg := Except.ok.inj hg
            rw [← hgg]
            exact fun x k => rfl
    | layer f =>
        cases sel with
        | indices idxs => exact Except.noConfusion hg
        | paths ps => exact general _ ps hg
    | node ls =>
        cases sel with
        | indices idxs => exact Except.noConfusion hg
        | paths ps => exact general _ ps hg
    | wrapped c mi =>
        cases sel with
        | indices idxs => exact Except.noConfusion hg
        | paths ps => exact general _ ps hg

/-- A forward call never changes the number of cells. -/
theorem Model.call_length (m : Model α) (x : α) (k : Key) (σ : Store α)
    (out : α) (σ' : Store α) (h : m.call x k σ = .ok (out, σ')) :
    σ'.length = σ.length := by
  rw [Model.call_eq_trace] at h
  cases htr : m.callTrace x k with
  | error e =>
      rw [htr] at h
      exact Except.noConfusion h
  | ok p =>
      rw [htr] at h
      have hp := Except.ok.inj h
      have : applyWrites σ p.2 = σ' := congrArg Prod.snd hp
      rw [← this, applyWrites_length]

/-- Inversion of the flat-sequential branch. -/
theorem getter_flat_ok (ls : List (Model α)) (idxs : List Nat)
    (g : IntermediateLayerGetter α)
    (hg : intermediate_layer_getter (.seq ls) (.indices idxs) = .ok g) :
    idxs ≠ [] ∧ g = ⟨.seq (instrumentFlat idxs ls 0 0), idxs.length⟩ := by
  unfold intermediate_layer_getter at hg
  by_cases hn : (SelResult.indices idxs).length = 0
  · rw [if_pos hn] at hg
    exact Except.noConfusion hg
  · rw [if_neg hn] at hg
    refine ⟨fun he => hn (by rw [he]; rfl), (Except.ok.inj hg).symm⟩

/-- Inversion of the mismatched flat branch: a location selector on a
`Sequential` wraps nothing (`idx in target_layers` is never true). -/
theorem getter_seq_paths_ok (ls : List (Model α)) (ps : List Path)
    (g : IntermediateLayerGetter α)
    (hg : intermediate_layer_getter (.seq ls) (.paths ps) = .ok g) :
    ps ≠ [] ∧ g = ⟨.seq ls, ps.length⟩ := by
  unfold intermediate_layer_getter at hg
  by_cases hn : (SelResult.paths ps).length = 0
  · rw [if_pos hn] at hg
    exact Except.noConfusion hg
  · rw [if_neg hn] at hg
    refine ⟨fun he => hn (by rw [he]; rfl), (Except.ok.inj hg).symm⟩

/-- A non-`Sequential` model with a location selector goes through the
`tree_at` branch. -/
theorem getter_paths_ok (m : Model α) (ps : List Path)
    (g : IntermediateLayerGetter α) (hns : ∀ ls, m ≠ .seq ls)
    (hg : intermediate_layer_getter m (.paths ps) = .ok g) :
    ps ≠ [] ∧ generalBranch m ps = .ok g := by
  have hne : ps ≠ [] := by
    intro he
    rw [he] at hg
    unfold intermediate_layer_getter at hg
    have h0 : (SelResult.paths ([] : List Path)).length = 0 := rfl
    rw [if_pos h0] at hg
    exact Except.noConfusion hg
  have hn : ¬ (SelResult.paths ps).length = 0 := by
    simpa [SelResult.length] using hne
  cases m with
  | seq ls => exact absurd rfl (hns ls)
  | layer f =>
      unfold intermediate_layer_getter at hg
      rw [if_neg hn] at hg
      exact ⟨hne, hg⟩
  | node ls =>
      unfold intermediate_layer_getter at hg
      rw [if_neg hn] at hg
      exact ⟨hne, hg⟩
  | wrapped c mi =>
      unfold intermediate_layer_getter at hg
      rw [if_neg hn] at hg
      exact ⟨hne, hg⟩

/-- Full characterization of a successful `tree_at` branch: output preserved,
wrapper `i` installed at the `i`-th enumerated location, independent
locations untouched. -/
theorem generalBranch_model_spec (m : Model α) (ps : List Path)
    (g : IntermediateLayerGetter α) (hg : generalBranch m ps = .ok g) :
    ∃ ts, m.subtreesAt ps = some ts ∧ pathsOk ps = true ∧ g.ncells = ps.length ∧
      m.replaceAll (mkReps 0 (ps.zip ts)) = some g.model ∧
      (∀ x k, g.model.callPure x k = m.callPure x k) ∧
      (∀ pr ∈ mkReps 0 (ps.zip ts), g.model.subtreeAt pr.1 = some pr.2) ∧
      (∀ q, (∀ pr ∈ mkReps 0 (ps.zip ts), pathFree pr.1 q = true) →
        g.model.subtreeAt q = m.subtreeAt q) := by
  obtain ⟨ts, hts, hok, hrep, hn⟩ := generalBranch_ok m ps g hg
  obtain ⟨m', hrep', hpure, hins, hframe⟩ :=
    Model.replaceAll_spec (mkReps 0 (ps.zip ts)) m
      (mkReps_spec_hyps m ps ts hts)
      (mkReps_pathsOk ps ts (Model.subtreesAt_length m ps ts hts) hok)
  rw [hrep] at hrep'
  have hmm : g.model = m' := Option.some.inj hrep'
  rw [← hmm] at hpure hins hframe
  exact ⟨ts, hts, hok, hn, hrep, hpure, hins, hframe⟩

/-- Every construction branch stores one cell per selector target. -/
theorem getter_ncells (m : Model α) (sel : SelResult)
    (g : IntermediateLayerGetter α)
    (hg : intermediate_layer_getter m sel = .ok g) : g.ncells = sel.length := by
  unfold intermediate_layer_getter at hg
  by_cases hn : sel.length = 0
  · rw [if_pos hn] at hg
    exact Except.noConfusion hg
  · rw [if_neg hn] at hg
    cases m with
    | seq ls =>
        cases sel with
        | indices idxs => rw [← Except.ok.inj hg]; rfl
        | paths ps => rw [← Except.ok.inj hg]; rfl
    | layer f =>
        cases sel with
        | indices idxs => exact Except.noConfusion hg
        | paths ps => exact (generalBranch_ok _ ps g hg).choose_spec.2.2.2
    | node ls =>
        cases sel with
        | indices idxs => exact Except.noConfusion hg
        | paths ps => exact (generalBranch_ok _ ps g hg).choose_spec.2.2.2
    | wrapped c mi =>
        cases sel with
        | indices idxs => exact Except.noConfusion hg
        | paths ps => exact (generalBranch_ok _ ps g hg).choose_spec.2.2.2

theorem Model.subtreeAt_seq_singleton (ls : List (Model α)) (j : Nat) :
    (Model.seq ls).subtreeAt [j] = ls[j]? := by
  show (ls[j]?).bind (fun c => c.subtreeAt []) = ls[j]?
  cases ls[j]? with
  | none => rfl
  | some c => simp [Model.subtreeAt_nil]

theorem Model.subtreeAt_node_singleton (ls : List (Model α)) (j : Nat) :
    (Model.node ls).subtreeAt [j] = ls[j]? := by
  show (ls[j]?).bind (fun c => c.subtreeAt []) = ls[j]?
  cases ls[j]? with
  | none => rfl
  | some c => simp [Model.subtreeAt_nil]

theorem selCount_add (idxs : List Nat) (pos a b : Nat) :
    selCount idxs pos (a + b) =
      selCount idxs pos a + selCount idxs (pos + a) b := by
  induction a generalizing pos with
  | zero => simp [selCount]
  | succ a ih =>
      have h1 : a + 1 + b = (a + b) + 1 := by omega
      rw [Nat.succ_add, selCount, selCount, ih (pos + 1)]
      have h2 : pos + 1 + a = pos + (a + 1) := by omega
      rw [h2]
      omega

theorem selCount_pos_of_mem (idxs : List Nat) (pos b : Nat)
    (h : pos ∈ idxs) (hb : 0 < b) : 0 < selCount idxs pos b := by
  cases b with
  | zero => omega
  | succ b => simp [selCount, h]

/-- Scan ranks are strictly increasing along selected positions. -/
theorem selCount_strict_mono (idxs : List Nat) (p q : Nat)
    (hp : p ∈ idxs) (hpq : p < q) :
    selCount idxs 0 p < selCount idxs 0 q := by
  have h : q = p + (q - p) := by omega
  rw [h, selCount_add]
  have := selCount_pos_of_mem idxs (0 + p) (q - p) (by simpa using hp) (by omega)
  omega

/-- In the flat branch, selected position `p` ends up wrapped with the cell
ranked by the scan: the number of selected positions before `p`. -/
theorem getter_flat_binding (ls : List (Model α)) (idxs : List Nat)
    (g : IntermediateLayerGetter α) (p : Nat) (l : Model α)
    (hg : intermediate_layer_getter (.seq ls) (.indices idxs) = .ok g)
    (hp : p ∈ idxs) (hl : ls[p]? = some l) :
    g.model.subtreeAt [p] = some (.wrapped (selCount idxs 0 p) l) := by
  obtain ⟨-, hgg⟩ := getter_flat_ok ls idxs g hg
  rw [hgg]
  show (Model.seq (instrumentFlat idxs ls 0 0)).subtreeAt [p] = _
  rw [Model.subtreeAt_seq_singleton, instrumentFlat_getElem idxs ls 0 0 p, hl]
  simp [hp]

/-- In the general branch, the `i`-th enumerated location ends up wrapped
with cell `i`. -/
theorem getter_paths_binding (m : Model α) (ps : List Path)
    (g : IntermediateLayerGetter α) (i : Nat) (p : Path) (t : Model α)
    (hns : ∀ ls, m ≠ .seq ls)
    (hg : intermediate_layer_getter m (.paths ps) = .ok g)
    (hp : ps[i]? = some p) (hsub : m.subtreeAt p = some t) :
    g.model.subtreeAt p = some (.wrapped i t) := by
  obtain ⟨-, hgb⟩ := getter_paths_ok m ps g hns hg
  obtain ⟨ts, hts, hok, hn, hrep, hpure, hins, hframe⟩ :=
    generalBranch_model_spec m ps g hgb
  obtain ⟨t', hts', hsub'⟩ := Model.subtreesAt_getElem m ps ts hts i p hp
  have htt : t' = t := Option.some.inj (hsub'.symm.trans hsub)
  rw [htt] at hts'
  have hzip : (ps.zip ts)[i]? = some (p, t) := by
    rw [List.getElem?_zip_eq_some]
    exact ⟨hp, hts'⟩
  have hmk : (mkReps 0 (ps.zip ts))[i]? = some (p, .wrapped i t) := by
    rw [mkReps_getElem 0 (ps.zip ts) i, hzip]
    simp
  exact hins (p, .wrapped i t) (List.getElem?_mem hmk)

/-! ### Flat-vs-general comparison lemmas -/

theorem pathFree_singleton (a b : Nat) : pathFree [a] [b] = !(a == b) := by
  by_cases h : a = b
  · subst h
    simp [pathFree, List.isPrefixOf]
  · simp [pathFree, List.isPrefixOf, h, Ne.symm h]

/-- Pairwise-increasing indices give pairwise-independent singleton paths. -/
theorem pathsOk_singletons (idxs : List Nat) (hsort : idxs.Pairwise (· < ·)) :
    pathsOk (idxs.map (fun i => [i])) = true := by
  induction idxs with
  | nil => rfl
  | cons i idxs ih =>
      obtain ⟨hhead, htail⟩ := List.pairwise_cons.mp hsort
      rw [List.map_cons]
      show ((idxs.map (fun i => [i])).all (pathFree [i]) &&
        pathsOk (idxs.map (fun i => [i]))) = true
      rw [Bool.and_eq_true]
      refine ⟨?_, ih htail⟩
      rw [List.all_eq_true]
      intro q hq
      obtain ⟨i', hi', hq'⟩ := List.mem_map.mp hq
      rw [← hq', pathFree_singleton]
      have hne : i ≠ i' := Nat.ne_of_lt (hhead i' hi')
      simp [hne]

/-- Enumerating singleton locations on a composite node succeeds when every
index is in range. -/
theorem subtreesAt_node_singletons (ls : List (Model α)) (idxs : List Nat)
    (hrange : ∀ p ∈ idxs, p < ls.length) :
    ∃ ts, (Model.node ls).subtreesAt (idxs.map (fun i => [i])) = some ts := by
  induction idxs with
  | nil => exact ⟨[], rfl⟩
  | cons i idxs ih =>
      obtain ⟨ts, hts⟩ := ih (fun p hp => hrange p (List.mem_cons_of_mem _ hp))
      have hi : i < ls.length := hrange i (List.mem_cons_self _ _)
      refine ⟨ls[i] :: ts, ?_⟩
      rw [List.map_cons]
      show ((Model.node ls).subtreeAt [i]).bind
        (fun t => ((Model.node ls).subtreesAt (idxs.map (fun i => [i]))).map
          (t :: ·)) = _
      rw [Model.subtreeAt_node_singleton, List.getElem?_eq_getElem hi, hts]
      rfl

/-- The scan count `selCount` counts the selected positions in a scan range. -/
theorem selCount_eq_length_filter (idxs : List Nat) (pos n : Nat) :
    selCount idxs pos n =
      ((List.range' pos n).filter (fun a => decide (a ∈ idxs))).length := by
  induction n generalizing pos with
  | zero => rfl
  | succ n ih =>
      rw [List.range'_succ, selCount, List.filter_cons]
      by_cases h : pos ∈ idxs
      · simp [h, ih (pos + 1)]
        omega
      · simp [h, ih (pos + 1)]

theorem length_filter_range'_eq (idxs : List Nat) (p : Nat) (hnd : idxs.Nodup) :
    ((List.range' 0 p).filter (fun a => decide (a ∈ idxs))).length =
      (idxs.filter (fun a => decide (a < p))).length := by
  apply List.Perm.length_eq
  apply (List.perm_ext_iff_of_nodup
    (List.Nodup.filter _ (List.nodup_range' 0 p))
    (List.Nodup.filter _ hnd)).mpr
  intro a
  simp only [List.mem_filter, List.mem_range'_1, decide_eq_true_eq]
  constructor
  · rintro ⟨⟨h0, hlt⟩, hmem⟩
    exact ⟨hmem, by omega⟩
  · rintro ⟨hmem, hlt⟩
    exact ⟨⟨by omega, by omega⟩, hmem⟩

/-- In a strictly increasing index list, the entries below `p = idxs[j]` are
exactly the first `j` entries. -/
theorem sorted_filter_lt_eq_take (idxs : List Nat) (j p : Nat)
    (hsort : idxs.Pairwise (· < ·)) (hj : idxs[j]? = some p) :
    idxs.filter (fun a => decide (a < p)) = idxs.take j := by
  induction idxs generalizing j with
  | nil => simp at hj
  | cons i idxs ih =>
      obtain ⟨hhead, htail⟩ := List.pairwise_cons.mp hsort
      cases j with
      | zero =>
          have hip : i = p := by simpa using hj
          subst hip
          rw [List.take_zero, List.filter_cons]
          have h1 : ¬ (i < i) := by omega
          simp only [h1, decide_eq_true_eq, if_false]
          rw [List.filter_eq_nil_iff]
          intro a ha
          have := hhead a ha
          simp only [decide_eq_true_eq]
          omega
      | succ j =>
          have hjj : idxs[j]? = some p := by simpa using hj
          have hp : p ∈ idxs := List.getElem?_mem hjj
          have hip : i < p := hhead p hp
          rw [List.filter_cons]
          have hd : decide (i < p) = true := by simpa using hip
          rw [hd, if_pos rfl, List.take_succ_cons, ih j htail hjj]

/-- The scan rank of `idxs[j]` in a strictly increasing index list is `j`. -/
theorem selCount_rank (idxs : List Nat) (j p : Nat)
    (hsort : idxs.Pairwise (· < ·)) (hj : idxs[j]? = some p) :
    selCount idxs 0 p = j := by
  have hnd : idxs.Nodup := hsort.imp (fun h => Nat.ne_of_lt h)
  rw [selCount_eq_length_filter, length_filter_range'_eq idxs p hnd,
    sorted_filter_lt_eq_take idxs j p hsort hj, List.length_take]
  have hjlen : j < idxs.length := (List.getElem?_eq_some_iff.mp hj).1
  omega

/-- Batch replacement at non-root locations inside a composite node keeps
the node shape and its arity. -/
theorem Model.replaceAll_node_shape (L : List (Path × Model α))
    (ls : List (Model α)) (m' : Model α) (hne : ∀ pr ∈ L, pr.1 ≠ [])
    (h : (Model.node ls).replaceAll L = some m') :
    ∃ ls', m' = .node ls' ∧ ls'.length = ls.length := by
  induction L generalizing ls with
  | nil => exact ⟨ls, (Option.some.inj h).symm, rfl⟩
  | cons pr L ih =>
      obtain ⟨p, r⟩ := pr
      simp only [Model.replaceAll, Option.bind_eq_some] at h
      obtain ⟨m₁, hm₁, hrest⟩ := h
      cases p with
      | nil => exact absurd rfl (hne ([], r) (List.mem_cons_self _ _))
      | cons j p' =>
          simp only [Model.replaceAt, Option.bind_eq_some, Option.map_eq_some'] at hm₁
          obtain ⟨c, hc, c', hc', hm₁'⟩ := hm₁
          rw [← hm₁'] at hrest
          obtain ⟨ls', hls', hlen⟩ := ih (ls.set j c')
            (fun pr hpr => hne pr (List.mem_cons_of_mem _ hpr)) hrest
          exact ⟨ls', hls', by rw [hlen, List.length_set]⟩

/-- Reduction of a fully successful `tree_at` branch. -/
theorem generalBranch_eq_ok (m : Model α) (ps : List Path) (ts : List (Model α))
    (m' : Model α) (hts : m.subtreesAt ps = some ts) (hok : pathsOk ps = true)
    (hrep : m.replaceAll (mkReps 0 (ps.zip ts)) = some m') :
    generalBranch m ps = .ok ⟨m', ps.length⟩ := by
  unfold generalBranch
  split
  · rename_i hnone
    rw [hts] at hnone
    exact Option.noConfusion hnone
  · rename_i ts' hts'
    rw [hts] at hts'
    have htts : ts = ts' := Option.some.inj hts'
    subst htts
    rw [if_pos hok]
    split
    · rename_i m'' hrep''
      rw [hrep] at hrep''
      rw [Option.some.inj hrep'']
    · rename_i hrepn
      rw [hrep] at hrepn
      exact Option.noConfusion hrepn

/-! ### Claim theorems -/

/-- C1: pass-through correctness — for every model, selector result, input,
key and cell contents, the first component of the pair returned by the model
`intermediate_layer_getter` produces equals the original model's output on
the same input and key. -/
theorem pass_through_correctness (m : Model α) (sel : SelResult)
    (g : IntermediateLayerGetter α) (x : α) (k : Key) (σ : Store α)
    (hg : intermediate_layer_getter m sel = .ok g) :
    (IntermediateLayerGetter.call g x k σ).map Prod.fst = m.callPure x k :=
  (Model.call_fst g.model x k σ).trans (getter_callPure m sel g hg x k)

/-- Witness for the pass-through theorem at a concrete pipeline. -/
theorem pass_through_correctness_witness :
    (IntermediateLayerGetter.call exGetter 5 none (initStore Nat 1)).map Prod.fst =
      exPipe.callPure 5 none :=
  pass_through_correctness exPipe (.indices [0]) exGetter 5 none (initStore Nat 1) rfl

/-- C2: capture count — the code raises at construction when the selector
returns zero targets (the `zip(*[...])` unpacking has nothing to unpack),
contradicting the claim's zero-target case; for any successfully built
getter, a successful call returns exactly one capture per selector target. -/
theorem capture_count :
    (∀ (α : Type) (m : Model α) (sel : SelResult), sel.length = 0 →
      intermediate_layer_getter m sel =
        .error "not enough values to unpack (expected 2, got 0)") ∧
    (∀ (α : Type) (m : Model α) (sel : SelResult) (g : IntermediateLayerGetter α)
      (x : α) (k : Key) (out : α) (caps : Store α),
      intermediate_layer_getter m sel = .ok g →
      IntermediateLayerGetter.call g x k (initStore α g.ncells) = .ok (out, caps) →
      caps.length = sel.length) := by
  constructor
  · intro α m sel h
    unfold intermediate_layer_getter
    rw [if_pos h]
  · intro α m sel g x k out caps hg hc
    have h1 := Model.call_length g.model x k (initStore α g.ncells) out caps hc
    rw [initStore, List.length_replicate] at h1
    rw [h1]
    exact getter_ncells m sel g hg

/-- Witness for the capture-count theorem: zero targets raise; one selected
position yields one capture. -/
theorem capture_count_witness :
    intermediate_layer_getter exPipe (.indices []) =
      .error "not enough values to unpack (expected 2, got 0)" ∧
    ([some (6 : Nat)] : Store Nat).length = (SelResult.indices [0]).length :=
  ⟨capture_count.1 Nat exPipe (.indices []) rfl,
   capture_count.2 Nat exPipe (.indices [0]) exGetter 5 none 12 [some 6] rfl rfl⟩

/-- C4: last-write-wins — `AuxData.update` unconditionally overwrites the
cell, so after a forward call each cell holds the value of the final write
performed on it (the final invocation of its wrapper) during that call. -/
theorem last_write_wins :
    (∀ (α : Type) (σ : Store α) (i : Nat) (v : α), i < σ.length →
      (AuxData.update σ i v)[i]? = some (some v)) ∧
    (∀ (α : Type) (m : Model α) (x : α) (k : Key) (out : α) (tr : List (Nat × α))
      (σ : Store α) (i : Nat) (v : α),
      m.callTrace x k = .ok (out, tr) → lastWrite tr i = some v → i < σ.length →
      m.call x k σ = .ok (out, applyWrites σ tr) ∧
        (applyWrites σ tr)[i]? = some (some v)) := by
  constructor
  · intro α σ i v h
    rw [AuxData.update]
    exact List.getElem?_set_self h
  · intro α m x k out tr σ i v htr hlast hlt
    refine ⟨?_, applyWrites_getElem_of_last_write tr σ i v hlt hlast⟩
    rw [Model.call_eq_trace, htr]
    rfl

/-- Witness for last-write-wins: a model invoking cell 0's wrapper twice in
one call leaves only the second result (4, not 2) in the cell. -/
theorem last_write_wins_witness :
    (AuxData.update (initStore Nat 1) 0 7)[0]? = some (some 7) ∧
    (Model.call exTwice 1 none (initStore Nat 1) =
        .ok (4, applyWrites (initStore Nat 1) [(0, 2), (0, 4)]) ∧
      (applyWrites (initStore Nat 1) [(0, 2), (0, 4)])[0]? = some (some 4)) :=
  ⟨last_write_wins.1 Nat (initStore Nat 1) 0 7 (by decide),
   last_write_wins.2 Nat exTwice 1 none 4 [(0, 2), (0, 4)] (initStore Nat 1) 0 4
     rfl rfl (by decide)⟩

/-- C5: capture content — the wrapper calls the wrapped sub-component with
the given input and the key forwarded unchanged, writes the result into its
bound cell and returns that same result; hence a cell written exactly once
during a call holds exactly that sub-component's output afterwards. -/
theorem capture_content_exactly_once :
    (∀ (α : Type) (w : Model α) (i : Nat) (x : α) (k : Key) (σ : Store α),
      (Model.wrapped i w).call x k σ =
        (w.call x k σ).map (fun p => (p.1, AuxData.update p.2 i p.1))) ∧
    (∀ (α : Type) (m : Model α) (x : α) (k : Key) (out : α) (tr : List (Nat × α))
      (σ : Store α) (i : Nat) (v : α),
      m.callTrace x k = .ok (out, tr) → writesTo tr i = [v] → i < σ.length →
      m.call x k σ = .ok (out, applyWrites σ tr) ∧
        (applyWrites σ tr)[i]? = some (some v)) := by
  constructor
  · intro α w i x k σ
    rfl
  · intro α m x k out tr σ i v htr hw hlt
    refine ⟨?_, applyWrites_getElem_of_last_write tr σ i v hlt
      (lastWrite_of_writesTo_singleton tr i v hw)⟩
    rw [Model.call_eq_trace, htr]
    rfl

/-- Witness for capture content: the instrumented pipeline stores stage 0's
actual output (6 on input 5) in its cell. -/
theorem capture_content_exactly_once_witness :
    (Model.wrapped 0 incLayer).call 5 none (initStore Nat 1) =
        (incLayer.call 5 none (initStore Nat 1)).map
          (fun p => (p.1, AuxData.update p.2 0 p.1)) ∧
    (Model.call (.seq [.wrapped 0 incLayer, dblLayer]) 5 none (initStore Nat 1) =
        .ok (12, applyWrites (initStore Nat 1) [(0, 6)]) ∧
      (applyWrites (initStore Nat 1) [(0, 6)])[0]? = some (some 6)) :=
  ⟨capture_content_exactly_once.1 Nat incLayer 0 5 none (initStore Nat 1),
   capture_content_exactly_once.2 Nat (.seq [.wrapped 0 incLayer, dblLayer]) 5 none 12
     [(0, 6)] (initStore Nat 1) 0 6 rfl rfl (by decide)⟩

/-- C7: error propagation — a successfully constructed instrumented model
raises exactly the errors the original model raises on the same input, with
the same message; the wrapper and aggregator neither catch nor add any. -/
theorem error_propagation_unchanged (m : Model α) (sel : SelResult)
    (g : IntermediateLayerGetter α) (x : α) (k : Key) (σ : Store α) (e : String)
    (hg : intermediate_layer_getter m sel = .ok g) :
    IntermediateLayerGetter.call g x k σ = .error e ↔ m.callPure x k = .error e := by
  have h := (Model.call_fst g.model x k σ).trans (getter_callPure m sel g hg x k)
  show g.model.call x k σ = .error e ↔ m.callPure x k = .error e
  cases hc : g.model.call x k σ with
  | error e' =>
      rw [hc] at h
      simp only [Except.map] at h
      rw [← h]
      constructor
      · intro he
        rw [Except.error.inj he]
      · intro he
        rw [Except.error.inj he]
  | ok p =>
      rw [hc] at h
      simp only [Except.map] at h
      constructor
      · intro he
        exact Except.noConfusion he
      · intro he
        rw [← h] at he
        exact Except.noConfusion he

/-- Witness for error propagation at a pipeline whose stage raises. -/
theorem error_propagation_unchanged_witness :
    (IntermediateLayerGetter.call exBoomGetter 5 none (initStore Nat 1) =
        .error "boom") ↔
      exBoomPipe.callPure 5 none = .error "boom" :=
  error_propagation_unchanged exBoomPipe (.indices [0]) exBoomGetter 5 none
    (initStore Nat 1) "boom" rfl

/-- C9: cells hold `None` at construction time, and a cell whose wrapper does
not run during a call from the construction-time store still holds `None`
afterwards. -/
theorem unwritten_cell_stays_none (m : Model α) (x : α) (k : Key)
    (n i : Nat) (out : α) (tr : List (Nat × α))
    (hi : i < n) (htr : m.callTrace x k = .ok (out, tr))
    (hw : writesTo tr i = []) :
    (initStore α n)[i]? = some none ∧
      m.call x k (initStore α n) = .ok (out, applyWrites (initStore α n) tr) ∧
      (applyWrites (initStore α n) tr)[i]? = some none := by
  refine ⟨initStore_getElem n i hi, ?_, ?_⟩
  · rw [Model.call_eq_trace, htr]
    rfl
  · rw [applyWrites_getElem_of_no_write tr _ i (lastWrite_of_writesTo_nil tr i hw)]
    exact initStore_getElem n i hi

/-- Witness for C9: a second cell whose wrapper never runs stays `None`. -/
theorem unwritten_cell_stays_none_witness :
    (initStore Nat 2)[1]? = some none ∧
      Model.call (.seq [.wrapped 0 incLayer]) 5 none (initStore Nat 2) =
        .ok (6, applyWrites (initStore Nat 2) [(0, 6)]) ∧
      (applyWrites (initStore Nat 2) [(0, 6)])[1]? = some none :=
  unwritten_cell_stays_none (.seq [.wrapped 0 incLayer]) 5 none 2 1 6 [(0, 6)]
    (by decide) rfl rfl

/-- C3 counterexample: selector enumeration `[1, 0]` on the two-stage
pipeline — the code captures in ascending-position (scan) order
`[stage-0 output, stage-1 output] = [some 2, some 4]`, not in the
selector's enumeration order `[some 4, some 2]`. -/
theorem capture_ordering_counterexample :
    (intermediate_layer_getter exPipe (.indices [1, 0])).bind
        (fun g => IntermediateLayerGetter.call g 1 none (initStore Nat 2)) =
      .ok (4, [some 2, some 4]) ∧
      ([some 2, some 4] : Store Nat) ≠ [some 4, some 2] :=
  ⟨rfl, by decide⟩

/-- C3 amended: captures are read out in cell-creation order, so in the
general branch the `i`-th enumerated location carries cell `i` (selector
enumeration order), while in the flat branch a selected position `p` carries
the cell ranked by the scan — `selCount idxs 0 p`, the number of selected
positions below `p` — i.e. ascending position order, which agrees with the
selector's enumeration exactly when it lists indices increasingly; in both
branches the assignment is fixed by construction, independent of the order
in which targets execute inside the model. -/
theorem capture_ordering_amended :
    (∀ (α : Type) (ls : List (Model α)) (idxs : List Nat)
      (g : IntermediateLayerGetter α) (p : Nat) (l : Model α),
      intermediate_layer_getter (.seq ls) (.indices idxs) = .ok g →
      p ∈ idxs → ls[p]? = some l →
      g.model.subtreeAt [p] = some (.wrapped (selCount idxs 0 p) l)) ∧
    (∀ (α : Type) (m : Model α) (ps : List Path) (g : IntermediateLayerGetter α)
      (i : Nat) (p : Path) (t : Model α),
      intermediate_layer_getter m (.paths ps) = .ok g →
      (∀ ls, m ≠ .seq ls) → ps[i]? = some p → m.subtreeAt p = some t →
      g.model.subtreeAt p = some (.wrapped i t)) := by
  constructor
  · intro α ls idxs g p l hg hp hl
    exact getter_flat_binding ls idxs g p l hg hp hl
  · intro α m ps g i p t hg hns hp hsub
    exact getter_paths_binding m ps g i p t hns hg hp hsub

/-- Witness for the amended capture-ordering theorem at concrete models. -/
theorem capture_ordering_amended_witness :
    Model.subtreeAt exGetter.model [0] =
        some (.wrapped (selCount [0] 0 0) incLayer) ∧
      Model.subtreeAt exNodeGetter.model [1] = some (.wrapped 1 dblLayer) :=
  ⟨capture_ordering_amended.1 Nat [incLayer, dblLayer] [0] exGetter 0 incLayer
      rfl (by decide) rfl,
   capture_ordering_amended.2 Nat exNode [[0], [1]] exNodeGetter 1 [1] dblLayer
      rfl (fun ls h => Model.noConfusion h) rfl rfl⟩

/-- C8 counterexample: duplicate selected index `[0, 0]` on a one-stage
pipeline — two (cell, wrapper) pairs are manufactured but position 0 is
wrapped only once (`idx in target_layers` is a membership test), so the
second pair's cell is never written and stays `None`, though the claim says
each target is wrapped independently by its own pair. -/
theorem fresh_pairs_counterexample :
    (intermediate_layer_getter (Model.seq [incLayer]) (.indices [0, 0])).bind
        (fun g => IntermediateLayerGetter.call g 1 none (initStore Nat 2)) =
      .ok (2, [some 2, none]) ∧
      ([some 2, none] : Store Nat) ≠ [some 2, some 2] :=
  ⟨rfl, by decide⟩

/-- C8 amended: construction manufactures exactly `N` pairs with pairwise
distinct cells; in the general branch every enumerated target is wrapped by
its own pair (distinct cells `i ≠ j`), and in the flat branch every
*distinct* selected in-range position is wrapped by its own pair with
pairwise-distinct cells — duplicate indices however collapse onto one
wrapper, leaving the surplus pairs unused (the counterexample). -/
theorem fresh_pairs_amended :
    (∀ (α : Type) (ls : List (Model α)) (idxs : List Nat)
      (g : IntermediateLayerGetter α) (p q : Nat) (lp lq : Model α),
      intermediate_layer_getter (.seq ls) (.indices idxs) = .ok g →
      p ∈ idxs → q ∈ idxs → p < q → ls[p]? = some lp → ls[q]? = some lq →
      g.model.subtreeAt [p] = some (.wrapped (selCount idxs 0 p) lp) ∧
      g.model.subtreeAt [q] = some (.wrapped (selCount idxs 0 q) lq) ∧
      selCount idxs 0 p ≠ selCount idxs 0 q) ∧
    (∀ (α : Type) (m : Model α) (ps : List Path) (g : IntermediateLayerGetter α)
      (i j : Nat) (p q : Path) (t u : Model α),
      intermediate_layer_getter m (.paths ps) = .ok g →
      (∀ ls, m ≠ .seq ls) → i ≠ j →
      ps[i]? = some p → ps[j]? = some q →
      m.subtreeAt p = some t → m.subtreeAt q = some u →
      g.model.subtreeAt p = some (.wrapped i t) ∧
      g.model.subtreeAt q = some (.wrapped j u) ∧
      (Model.wrapped i t : Model α) ≠ .wrapped j u) := by
  constructor
  · intro α ls idxs g p q lp lq hg hp hq hpq hlp hlq
    refine ⟨getter_flat_binding ls idxs g p lp hg hp hlp,
      getter_flat_binding ls idxs g q lq hg hq hlq, ?_⟩
    exact Nat.ne_of_lt (selCount_strict_mono idxs p q hp hpq)
  · intro α m ps g i j p q t u hg hns hij hp hq ht hu
    refine ⟨getter_paths_binding m ps g i p t hns hg hp ht,
      getter_paths_binding m ps g j q u hns hg hq hu, ?_⟩
    intro he
    injection he with h1 h2
    exact hij h1

/-- Witness for the amended fresh-pairs theorem at concrete models. -/
theorem fresh_pairs_amended_witness :
    (Model.subtreeAt exGetter2.model [0] =
          some (.wrapped (selCount [0, 1] 0 0) incLayer) ∧
        Model.subtreeAt exGetter2.model [1] =
          some (.wrapped (selCount [0, 1] 0 1) dblLayer) ∧
        selCount [0, 1] 0 0 ≠ selCount [0, 1] 0 1) ∧
      (Model.subtreeAt exNodeGetter.model [0] = some (.wrapped 0 incLayer) ∧
        Model.subtreeAt exNodeGetter.model [1] = some (.wrapped 1 dblLayer) ∧
        (Model.wrapped 0 incLayer : Model Nat) ≠ .wrapped 1 dblLayer) :=
  ⟨fresh_pairs_amended.1 Nat [incLayer, dblLayer] [0, 1] exGetter2 0 1
      incLayer dblLayer rfl (by decide) (by decide) (by decide) rfl rfl,
   fresh_pairs_amended.2 Nat exNode [[0], [1]] exNodeGetter 0 1 [0] [1]
      incLayer dblLayer rfl (fun ls h => Model.noConfusion h) (by decide)
      rfl rfl rfl rfl⟩

/-- C10: frame / no mutation — the constructor is a pure copy-on-write: it
returns a new model value in which every non-target part is the original
(unselected pipeline positions keep their original module; locations
independent of all selected locations hold the same sub-model as in the
original), and the input model value itself is untouched. -/
theorem construction_frame :
    (∀ (α : Type) (ls : List (Model α)) (idxs : List Nat)
      (g : IntermediateLayerGetter α) (p : Nat),
      intermediate_layer_getter (.seq ls) (.indices idxs) = .ok g →
      ¬ p ∈ idxs →
      g.model.subtreeAt [p] = (Model.seq ls).subtreeAt [p]) ∧
    (∀ (α : Type) (m : Model α) (ps : List Path) (g : IntermediateLayerGetter α)
      (q : Path),
      intermediate_layer_getter m (.paths ps) = .ok g →
      (∀ ls, m ≠ .seq ls) → (∀ p ∈ ps, pathFree p q = true) →
      g.model.subtreeAt q = m.subtreeAt q) := by
  constructor
  · intro α ls idxs g p hg hp
    obtain ⟨-, hgg⟩ := getter_flat_ok ls idxs g hg
    rw [hgg]
    show (Model.seq (instrumentFlat idxs ls 0 0)).subtreeAt [p] = _
    rw [Model.subtreeAt_seq_singleton, Model.subtreeAt_seq_singleton,
      instrumentFlat_getElem idxs ls 0 0 p]
    cases ls[p]? with
    | none => rfl
    | some l => simp [hp]
  · intro α m ps g q hg hns hq
    obtain ⟨-, hgb⟩ := getter_paths_ok m ps g hns hg
    obtain ⟨ts, hts, hok, hn, hrep, hpure, hins, hframe⟩ :=
      generalBranch_model_spec m ps g hgb
    refine hframe q ?_
    intro pr hpr
    obtain ⟨j, pt, hpt, hpr'⟩ := mkReps_mem 0 (ps.zip ts) pr hpr
    have hmem : pt.1 ∈ ps := by
      obtain ⟨a, b⟩ := pt
      exact (List.of_mem_zip (List.getElem?_mem hpt)).1
    rw [hpr']
    exact hq pt.1 hmem

/-- Witness for the frame theorem: position 1 of the pipeline is unchanged;
location `[2]` (outside the selected `[[0], [1]]`) is unchanged. -/
theorem construction_frame_witness :
    Model.subtreeAt exGetter.model [1] =
        (Model.seq [incLayer, dblLayer]).subtreeAt [1] ∧
      Model.subtreeAt exNodeGetter.model [2] = exNode.subtreeAt [2] :=
  ⟨construction_frame.1 Nat [incLayer, dblLayer] [0] exGetter 1 rfl (by decide),
   construction_frame.2 Nat exNode [[0], [1]] exNodeGetter [2] rfl
      (fun ls h => Model.noConfusion h) (by decide)⟩

/-- C6 counterexample: with selector enumeration `[1, 0]`, the flat branch
(on the `Sequential` pipeline) captures in scan order `[some 2, some 4]`
while the general branch (on the same two layers as a plain composite, with
the equivalent location selector `[[1], [0]]`) captures in enumeration order
`[some 4, some 2]` — the two branches disagree. -/
theorem flat_general_counterexample :
    (intermediate_layer_getter exPipe (.indices [1, 0])).bind
        (fun g => IntermediateLayerGetter.call g 1 none (initStore Nat 2)) =
      .ok (4, [some 2, some 4]) ∧
    (intermediate_layer_getter exNode (.paths [[1], [0]])).bind
        (fun g => IntermediateLayerGetter.call g 1 none (initStore Nat 2)) =
      .ok (4, [some 4, some 2]) ∧
    ([some 2, some 4] : Store Nat) ≠ [some 4, some 2] :=
  ⟨rfl, rfl, by decide⟩

/-- C6 amended: when the positional selector lists its indices in strictly
increasing order (the order of the single linear scan), instrumenting the
flat pipeline through the positional-index branch and instrumenting the same
layer list as a composite node through the general structural-replacement
branch with the equivalent location selector produce the same output and the
same captures on every input, key and store; for non-increasing enumerations
the branches differ (see the counterexample). -/
theorem flat_general_equivalence_ascending (ls : List (Model α))
    (idxs : List Nat) (x : α) (k : Key) (σ : Store α)
    (hsort : idxs.Pairwise (· < ·)) (hrange : ∀ p ∈ idxs, p < ls.length)
    (hne : idxs ≠ []) :
    (intermediate_layer_getter (.seq ls) (.indices idxs)).bind
        (fun g => IntermediateLayerGetter.call g x k σ) =
      (intermediate_layer_getter (.node ls)
          (.paths (idxs.map (fun i => [i])))).bind
        (fun g => IntermediateLayerGetter.call g x k σ) := by
  have hlen0 : ¬ (SelResult.indices idxs).length = 0 := by
    simpa [SelResult.length, List.length_eq_zero] using hne
  have hflat : intermediate_layer_getter (.seq ls) (.indices idxs) =
      .ok ⟨.seq (instrumentFlat idxs ls 0 0), idxs.length⟩ := by
    unfold intermediate_layer_getter
    rw [if_neg hlen0]
  have hlenp : ¬ (SelResult.paths (idxs.map (fun i => [i]))).length = 0 := by
    simpa [SelResult.length, List.length_eq_zero] using hne
  have hgen_eq : intermediate_layer_getter (.node ls)
      (.paths (idxs.map (fun i => [i]))) =
        generalBranch (.node ls) (idxs.map (fun i => [i])) := by
    unfold intermediate_layer_getter
    rw [if_neg hlenp]
  obtain ⟨ts, hts⟩ := subtreesAt_node_singletons ls idxs hrange
  have hok : pathsOk (idxs.map (fun i => [i])) = true := pathsOk_singletons idxs hsort
  obtain ⟨m', hrep, hpure, hins, hframe⟩ :=
    Model.replaceAll_spec (mkReps 0 ((idxs.map (fun i => [i])).zip ts)) (.node ls)
      (mkReps_spec_hyps (.node ls) (idxs.map (fun i => [i])) ts hts)
      (mkReps_pathsOk (idxs.map (fun i => [i])) ts
        (Model.subtreesAt_length _ _ ts hts) hok)
  have hgb : generalBranch (.node ls) (idxs.map (fun i => [i])) =
      .ok ⟨m', (idxs.map (fun i => [i])).length⟩ :=
    generalBranch_eq_ok _ _ ts m' hts hok hrep
  obtain ⟨ls', hls', hlslen⟩ := Model.replaceAll_node_shape _ ls m'
    (by
      intro pr hpr
      obtain ⟨j, pt, hpt, hpr'⟩ := mkReps_mem _ _ pr hpr
      have hmem1 : pt.1 ∈ idxs.map (fun i => [i]) := by
        obtain ⟨a, b⟩ := pt
        exact (List.of_mem_zip (List.getElem?_mem hpt)).1
      obtain ⟨i, hiidx, hieq⟩ := List.mem_map.mp hmem1
      rw [hpr']
      show pt.1 ≠ []
      rw [← hieq]
      exact fun he => List.noConfusion he)
    hrep
  have hI : ls' = instrumentFlat idxs ls 0 0 := by
    apply List.ext_getElem?
    intro p
    by_cases hpmem : p ∈ idxs
    · obtain ⟨j, hj⟩ := List.mem_iff_getElem?.mp hpmem
      have hpssj : (idxs.map (fun i => [i]))[j]? = some [p] := by
        rw [List.getElem?_map, hj]
        rfl
      obtain ⟨t, htsj, hsubj⟩ :=
        Model.subtreesAt_getElem _ (idxs.map (fun i => [i])) ts hts j [p] hpssj
      rw [Model.subtreeAt_node_singleton] at hsubj
      have hzip : ((idxs.map (fun i => [i])).zip ts)[j]? = some ([p], t) := by
        rw [List.getElem?_zip_eq_some]
        exact ⟨hpssj, htsj⟩
      have hmk : (mkReps 0 ((idxs.map (fun i => [i])).zip ts))[j]? =
          some ([p], .wrapped j t) := by
        rw [mkReps_getElem, hzip]
        simp
      have hbind := hins ([p], .wrapped j t) (List.getElem?_mem hmk)
      rw [hls', Model.subtreeAt_node_singleton] at hbind
      rw [hbind, instrumentFlat_getElem, hsubj]
      have hrank : selCount idxs 0 p = j := selCount_rank idxs j p hsort hj
      simp [hpmem, hrank]
    · have hframe_p : m'.subtreeAt [p] = (Model.node ls).subtreeAt [p] := by
        apply hframe
        intro pr hpr
        obtain ⟨j, pt, hpt, hpr'⟩ := mkReps_mem _ _ pr hpr
        have hmem1 : pt.1 ∈ idxs.map (fun i => [i]) := by
          obtain ⟨a, b⟩ := pt
          exact (List.of_mem_zip (List.getElem?_mem hpt)).1
        obtain ⟨i, hiidx, hieq⟩ := List.mem_map.mp hmem1
        rw [hpr']
        show pathFree pt.1 [p] = true
        rw [← hieq, pathFree_singleton]
        have hne2 : i ≠ p := fun he => hpmem (he ▸ hiidx)
        simp [hne2]
      rw [hls', Model.subtreeAt_node_singleton,
        Model.subtreeAt_node_singleton] at hframe_p
      rw [hframe_p, instrumentFlat_getElem]
      cases ls[p]? with
      | none => rfl
      | some l => simp [hpmem]
  rw [hflat, hgen_eq, hgb, hls', hI]
  rfl

/-- Witness for the amended flat-vs-general equivalence with the ascending
selector `[0, 1]` on the two-stage pipeline. -/
theorem flat_general_equivalence_ascending_witness :
    (intermediate_layer_getter (Model.seq [incLayer, dblLayer])
          (.indices [0, 1])).bind
        (fun g => IntermediateLayerGetter.call g 1 none (initStore Nat 2)) =
      (intermediate_layer_getter (Model.node [incLayer, dblLayer])
          (.paths ([0, 1].map (fun i => [i])))).bind
        (fun g => IntermediateLayerGetter.call g 1 none (initStore Nat 2)) :=
  flat_general_equivalence_ascending [incLayer, dblLayer] [0, 1] 1 none
    (initStore Nat 2) (by decide) (by decide) (by decide)

end EqxVision
